import Mathlib

/-!
Verification of the CouncilSearch scraper (`DownloadPdfs.py`).

Text is modelled as lists of ASCII code points (`Str := List Nat`); each
definition below is a shallow embedding of the corresponding Python function,
with HTML pages abstracted to the data BeautifulSoup extracts from them
(hyperlink targets and text fragments).
-/

set_option maxRecDepth 10000

/-- Text is a list of ASCII code points. -/
abbrev Str := List Nat

/-- Convert a Lean string literal into its code-point list (ASCII inputs only). -/
def S (s : String) : Str := s.data.map Char.toNat

/-- ASCII lower-casing of one code point (model of Python `str.lower` per char). -/
def lowerB (c : Nat) : Nat := if 65 ≤ c ∧ c ≤ 90 then c + 32 else c

/-- ASCII upper-casing of one code point (model of Python `str.upper` per char). -/
def upperB (c : Nat) : Nat := if 97 ≤ c ∧ c ≤ 122 then c - 32 else c

/-- Model of Python `str.lower` on a whole string. -/
def lowerStr (l : Str) : Str := l.map lowerB

/-- Is the code point an ASCII digit (model of regex `\d` on ASCII text)? -/
def isDigitB (c : Nat) : Bool := decide (48 ≤ c ∧ c ≤ 57)

/-- Is the code point ASCII whitespace (model of regex `\s` on ASCII text)? -/
def isSpaceB (c : Nat) : Bool :=
  (c == 32) || (c == 9) || (c == 10) || (c == 11) || (c == 12) || (c == 13)

/-- Model of Python substring containment `nd in hay`. -/
def containsSub : Str → Str → Bool
  | [], nd => nd.isPrefixOf []
  | c :: t, nd => nd.isPrefixOf (c :: t) || containsSub t nd

theorem containsSub_correct (hay nd : Str) :
    containsSub hay nd = true ↔ nd <:+: hay := by
  induction hay with
  | nil =>
    simp only [containsSub, List.isPrefixOf_iff_prefix, List.infix_nil]
    exact ⟨fun h => List.prefix_nil.mp h, fun h => by simp [h]⟩
  | cons c t ih =>
    simp only [containsSub, Bool.or_eq_true, List.isPrefixOf_iff_prefix, ih,
      List.infix_cons_iff]

theorem containsSub_mono {hay nd nd' : Str} (hsub : nd' <:+: nd)
    (h : containsSub hay nd = true) : containsSub hay nd' = true :=
  (containsSub_correct hay nd').mpr (hsub.trans ((containsSub_correct hay nd).mp h))

/-- The seen-set loop the script uses to de-duplicate while preserving order
(`for i in ids: if i not in seen: uniq.append(i); seen.add(i)`). -/
def dedupAux [DecidableEq α] (seen : List α) : List α → List α
  | [] => []
  | a :: l => if a ∈ seen then dedupAux seen l else a :: dedupAux (a :: seen) l

/-- De-duplication with an initially empty seen set, as in the script. -/
def dedupFS [DecidableEq α] (l : List α) : List α := dedupAux [] l

/-- The specification-side description of first-seen order-preserving
de-duplication: keep each element's first occurrence, drop the rest. -/
def firstSeenSpec [DecidableEq α] : List α → List α
  | [] => []
  | a :: l => a :: firstSeenSpec (l.filter fun b => decide (b ≠ a))
termination_by l => l.length
decreasing_by
  simp only [List.length_cons]
  exact Nat.lt_succ_of_le (List.length_filter_le _ l)

theorem dedupAux_eq_firstSeenSpec [DecidableEq α] (l : List α) :
    ∀ seen : List α,
      dedupAux seen l = firstSeenSpec (l.filter fun b => decide (b ∉ seen)) := by
  induction l with
  | nil => intro seen; simp [dedupAux, firstSeenSpec]
  | cons a l ih =>
    intro seen
    by_cases ha : a ∈ seen
    · simp only [dedupAux, if_pos ha, List.filter_cons]
      have : decide (a ∉ seen) = false := by simp [ha]
      rw [this]
      · exact ih seen
    · rw [dedupAux, if_neg ha]
      have hstep : List.filter (fun b => decide (b ∉ seen)) (a :: l) =
          a :: List.filter (fun b => decide (b ∉ seen)) l := by simp [ha]
      rw [hstep, firstSeenSpec, ih (a :: seen), List.filter_filter]
      congr 1
      refine congrArg firstSeenSpec ?_
      apply List.filter_congr
      intro b _
      by_cases hba : b = a <;> by_cases hbs : b ∈ seen <;> simp [hba, hbs]

theorem dedupFS_eq_firstSeenSpec [DecidableEq α] (l : List α) :
    dedupFS l = firstSeenSpec l := by
  rw [dedupFS, dedupAux_eq_firstSeenSpec]
  congr 1
  rw [List.filter_eq_self]
  intro a _
  simp

theorem mem_firstSeenSpec [DecidableEq α] :
    ∀ n (l : List α), l.length ≤ n → ∀ x ∈ firstSeenSpec l, x ∈ l := by
  intro n
  induction n with
  | zero =>
    intro l hl x hx
    rw [Nat.le_zero, List.length_eq_zero] at hl
    subst hl
    simp [firstSeenSpec] at hx
  | succ n ih =>
    intro l hl x hx
    cases l with
    | nil => simp [firstSeenSpec] at hx
    | cons a l =>
      rw [firstSeenSpec, List.mem_cons] at hx
      rcases hx with rfl | hx
      · exact List.mem_cons_self x l
      · have hlen : (l.filter fun b => decide (b ≠ a)).length ≤ n := by
          have := List.length_filter_le (fun b => decide (b ≠ a)) l
          simp only [List.length_cons, Nat.succ_le_succ_iff] at hl
          omega
        have := ih _ hlen x hx
        exact List.mem_cons_of_mem a (List.mem_of_mem_filter this)

theorem firstSeenSpec_nodup [DecidableEq α] :
    ∀ n (l : List α), l.length ≤ n → (firstSeenSpec l).Nodup := by
  intro n
  induction n with
  | zero =>
    intro l hl
    rw [Nat.le_zero, List.length_eq_zero] at hl
    subst hl
    simp [firstSeenSpec]
  | succ n ih =>
    intro l hl
    cases l with
    | nil => simp [firstSeenSpec]
    | cons a l =>
      rw [firstSeenSpec]
      have hlen : (l.filter fun b => decide (b ≠ a)).length ≤ n := by
        have := List.length_filter_le (fun b => decide (b ≠ a)) l
        simp only [List.length_cons, Nat.succ_le_succ_iff] at hl
        omega
      refine List.nodup_cons.mpr ⟨fun hmem => ?_, ih _ hlen⟩
      have := mem_firstSeenSpec _ _ (le_refl _) a hmem
      have := List.of_mem_filter this
      simp at this

theorem dedupFS_nodup [DecidableEq α] (l : List α) : (dedupFS l).Nodup := by
  rw [dedupFS_eq_firstSeenSpec]
  exact firstSeenSpec_nodup l.length l (le_refl _)

/-! ## Meeting-ID extraction (`extract_meeting_ids`) -/

/-- The literal path pattern of the regex `/AgendaCenter/26/(\d+)`. -/
def patId : Str := S "/AgendaCenter/26/"

/-- Numeric value of a digit string, as Python `int` reads it. -/
def digitsToNat (ds : Str) : Nat := ds.foldl (fun a c => a * 10 + (c - 48)) 0

/-- Model of `re.search(r"/AgendaCenter/26/(\d+)", href)`: scan positions left
to right; where the literal prefix matches and at least one digit follows,
capture the maximal digit run. -/
def searchIdAux : Str → Option Nat
  | [] => none
  | c :: t =>
    if patId.isPrefixOf (c :: t) then
      match ((c :: t).drop patId.length).takeWhile isDigitB with
      | [] => searchIdAux t
      | ds => some (digitsToNat ds)
    else searchIdAux t

/-- `extract_meeting_ids`: the listing page is modelled by the list of its
hyperlink targets; collect every regex match in document order, then
de-duplicate with the seen-set loop. -/
def extractMeetingIds (hrefs : List Str) : List Nat :=
  dedupFS (hrefs.filterMap searchIdAux)

/-- C4: for every listing-page input, meeting-ID extraction returns distinct
integers in first-seen order (it equals the first-occurrence de-duplication of
the matched IDs and has no duplicates), no match yields the empty list, and a
page with two hyperlinks to /AgendaCenter/26/501 yields [501]. -/
theorem claimC4_meetingIds_dedup (hrefs : List Str) :
    extractMeetingIds hrefs = firstSeenSpec (hrefs.filterMap searchIdAux) ∧
    (extractMeetingIds hrefs).Nodup ∧
    ((∀ h ∈ hrefs, searchIdAux h = none) → extractMeetingIds hrefs = []) ∧
    extractMeetingIds [S "/AgendaCenter/26/501", S "/AgendaCenter/26/501"] = [501] := by
  refine ⟨dedupFS_eq_firstSeenSpec _, dedupFS_nodup _, fun hnone => ?_, by decide⟩
  have hnil : hrefs.filterMap searchIdAux = [] :=
    List.filterMap_eq_nil_iff.mpr fun h hh => hnone h hh
  rw [extractMeetingIds, hnil]
  rfl

theorem claimC4_witness :
    extractMeetingIds [S "https://www.joplinmo.org/page"] = [] :=
  (claimC4_meetingIds_dedup [S "https://www.joplinmo.org/page"]).2.2.1 (by decide)

/-! ## File-link extraction (`extract_file_links`) -/

/-- The site origin, `BASE_URL`. -/
def baseUrl : Str := S "https://www.joplinmo.org"

/-- `absolute_url`: convert a possibly relative href into a full URL. -/
def absoluteUrl (href : Str) : Str :=
  if (S "http").isPrefixOf href then href
  else baseUrl ++ (if (S "/").isPrefixOf href then href else S "/" ++ href)

/-- The `EXTENSIONS` tuple of recognized document extensions. -/
def EXTENSIONS : List Str :=
  [S ".pdf", S ".zip", S ".doc", S ".docx", S ".xls", S ".xlsx", S ".ppt", S ".pptx"]

/-- `url.lower().endswith(EXTENSIONS)`. -/
def endsWithExt (lu : Str) : Bool := EXTENSIONS.any fun e => e.isSuffixOf lu

/-- The per-hyperlink body of the `extract_file_links` loop: normalise the href
to an absolute URL and run the classification branches in the order of the
source, returning the (url, type) pair appended to `files`, or none when the
link is discarded. -/
def classify (href : Str) : Option (Str × Str) :=
  let url := absoluteUrl href
  let lu := lowerStr url
  if endsWithExt lu then
    some (url,
      if containsSub lu (S "/agenda/") || containsSub lu (S "/viewfile/agenda/") then
        S "agenda"
      else if containsSub lu (S "/minutes/") || containsSub lu (S "/viewfile/minutes/") then
        S "minutes"
      else if containsSub lu (S "/packet/") || containsSub lu (S "/viewfile/packet/") then
        S "packet"
      else S "other")
  else
    let cleanPath := lowerStr (url.takeWhile fun c => decide (c ≠ 63))
    if containsSub cleanPath (S "/viewfile/agenda/") then
      some (url, if containsSub lu (S "packet=true") then S "packet" else S "agenda")
    else if containsSub cleanPath (S "/viewfile/minutes/") then
      some (url, S "minutes")
    else if containsSub cleanPath (S "/viewfile/packet/") then
      some (url, S "packet")
    else none

/-- `extract_file_links`: the meeting page is modelled by the list of its
hyperlink targets; classify each, collect in document order, de-duplicate. -/
def extractFileLinks (hrefs : List Str) : List (Str × Str) :=
  dedupFS (hrefs.filterMap classify)

/-- The direct-extension branch as the specification words it: segment matching
on /agenda/, /minutes/, /packet/, defaulting to "other". -/
def directTypeSpec (lu : Str) : Str :=
  if containsSub lu (S "/agenda/") then S "agenda"
  else if containsSub lu (S "/minutes/") then S "minutes"
  else if containsSub lu (S "/packet/") then S "packet"
  else S "other"

/-- The query string of a URL as the specification words it: everything after
the first question mark, empty when there is none. -/
def specQueryString (u : Str) : Str := (u.dropWhile fun c => decide (c ≠ 63)).drop 1

theorem viewfile_agenda_contains :
    containsSub (S "/viewfile/agenda/") (S "/agenda/") = true := by decide

theorem viewfile_minutes_contains :
    containsSub (S "/viewfile/minutes/") (S "/minutes/") = true := by decide

theorem viewfile_packet_contains :
    containsSub (S "/viewfile/packet/") (S "/packet/") = true := by decide

theorem or_viewfile_eq (lu seg vseg : Str)
    (hsub : containsSub vseg seg = true) :
    (containsSub lu seg || containsSub lu vseg) = containsSub lu seg := by
  cases hv : containsSub lu vseg with
  | false => simp
  | true =>
    have : containsSub lu seg = true :=
      containsSub_mono ((containsSub_correct vseg seg).mp hsub) hv
    simp [this]

/-- C2: a hyperlink whose absolute URL ends with a recognized document
extension is classified by the direct-extension branch alone — the result is
exactly the segment matching on /agenda/, /minutes/, /packet/ with default
"other", and the viewfile branch is never consulted. -/
theorem claimC2_extension_branch_priority (href : Str)
    (h : endsWithExt (lowerStr (absoluteUrl href)) = true) :
    classify href = some (absoluteUrl href, directTypeSpec (lowerStr (absoluteUrl href))) := by
  rw [classify]
  simp only [h, if_true]
  rw [directTypeSpec,
    or_viewfile_eq _ _ _ viewfile_agenda_contains,
    or_viewfile_eq _ _ _ viewfile_minutes_contains,
    or_viewfile_eq _ _ _ viewfile_packet_contains]

theorem claimC2_witness :
    classify (S "https://www.joplinmo.org/AgendaCenter/ViewFile/Packet/501.pdf") =
      some (S "https://www.joplinmo.org/AgendaCenter/ViewFile/Packet/501.pdf", S "packet") :=
  (claimC2_extension_branch_priority
    (S "https://www.joplinmo.org/AgendaCenter/ViewFile/Packet/501.pdf")
    (by decide)).trans (by decide)

/-- C3 counterexample: this URL does not end with a recognized extension, its
path (ignoring the query string) contains a /viewfile/agenda/ segment, and its
query string (there is none) does not contain "packet=true"; the claim then
requires type "agenda", yet the code classifies it as "packet", because the
source tests "packet=true" against the whole lowercased URL, and here the
occurrence is in the path. -/
theorem claimC3_counterexample :
    endsWithExt (lowerStr (S "https://www.joplinmo.org/viewfile/agenda/packet=true")) = false ∧
    containsSub
      (lowerStr ((S "https://www.joplinmo.org/viewfile/agenda/packet=true").takeWhile
        fun c => decide (c ≠ 63)))
      (S "/viewfile/agenda/") = true ∧
    containsSub (specQueryString (S "https://www.joplinmo.org/viewfile/agenda/packet=true"))
      (S "packet=true") = false ∧
    classify (S "https://www.joplinmo.org/viewfile/agenda/packet=true") =
      some (S "https://www.joplinmo.org/viewfile/agenda/packet=true", S "packet") := by
  refine ⟨by decide, by decide, by decide, by decide⟩

/-- C3 amended: for a hyperlink whose URL does not end with a recognized
document extension and whose path (ignoring the query string) contains a
/viewfile/agenda/ segment, the extracted type is "packet" exactly when the
whole lowercased URL contains "packet=true" anywhere (in practice the query
string), and "agenda" otherwise. -/
theorem claimC3_amended_viewfile_agenda (href : Str)
    (h1 : endsWithExt (lowerStr (absoluteUrl href)) = false)
    (h2 : containsSub (lowerStr ((absoluteUrl href).takeWhile fun c => decide (c ≠ 63)))
      (S "/viewfile/agenda/") = true) :
    classify href = some (absoluteUrl href,
      if containsSub (lowerStr (absoluteUrl href)) (S "packet=true") = true then S "packet"
      else S "agenda") := by
  rw [classify]
  simp only [h1, h2, Bool.false_eq_true, if_false, if_true]

theorem claimC3_amended_witness :
    classify (S "/AgendaCenter/ViewFile/Agenda/502?packet=true") =
      some (S "https://www.joplinmo.org/AgendaCenter/ViewFile/Agenda/502?packet=true",
        S "packet") :=
  (claimC3_amended_viewfile_agenda (S "/AgendaCenter/ViewFile/Agenda/502?packet=true")
    (by decide) (by decide)).trans (by decide)

/-- C9: for every meeting-page input, file-link extraction returns the
first-occurrence de-duplication of the classified (url, type) pairs — no
duplicate pairs, first-seen order preserved. -/
theorem claimC9_fileLinks_dedup (hrefs : List Str) :
    extractFileLinks hrefs = firstSeenSpec (hrefs.filterMap classify) ∧
    (extractFileLinks hrefs).Nodup :=
  ⟨dedupFS_eq_firstSeenSpec _, dedupFS_nodup _⟩

/-! ## Date extraction (`parse_meeting_date`) -/

/-- One successful match of the date regex: the raw captured month text, day
digits and year digits. -/
structure DateMatch where
  month : Str
  day : Str
  year : Str
deriving DecidableEq

/-- The twelve month-name literals of the regex alternation, in source order. -/
def monthNames : List Str :=
  [S "January", S "February", S "March", S "April", S "May", S "June", S "July",
   S "August", S "September", S "October", S "November", S "December"]

/-- Try each month-name alternative as a case-insensitive prefix of the text
(the regex alternation under `re.IGNORECASE`); return the captured slice in its
original casing together with the remaining text. -/
def tryMonths : List Str → Str → Option (Str × Str)
  | [], _ => none
  | nm :: ms, l =>
    if nm.length ≤ l.length ∧ lowerStr (l.take nm.length) = lowerStr nm then
      some (l.take nm.length, l.drop nm.length)
    else tryMonths ms l

/-- Match `(Month)\s+(\d{1,2}),?\s+(\d{4})` anchored at the head of the text.
Whitespace and digit runs are taken maximally; a day run longer than two digits
makes every backtracking alternative of `\d{1,2}` fail, as in the Python regex,
so the match is rejected. -/
def matchAt (l : Str) : Option DateMatch :=
  match tryMonths monthNames l with
  | none => none
  | some (cap, r1) =>
    if (r1.takeWhile isSpaceB).length = 0 then none
    else
      let r2 := r1.dropWhile isSpaceB
      let ds := r2.takeWhile isDigitB
      if ds.length = 0 ∨ 2 < ds.length then none
      else
        let r3 := r2.dropWhile isDigitB
        let r4 := if r3.head? = some 44 then r3.tail else r3
        if (r4.takeWhile isSpaceB).length = 0 then none
        else
          let r5 := r4.dropWhile isSpaceB
          let ys := r5.take 4
          if ys.length = 4 then
            if ys.all isDigitB = true then some ⟨cap, ds, ys⟩ else none
          else none

/-- `date_pattern.search(txt)`: try the pattern at each position, leftmost
match wins. -/
def searchDate : Str → Option DateMatch
  | [] => matchAt []
  | c :: t =>
    match matchAt (c :: t) with
    | some m => some m
    | none => searchDate t

/-- Model of Python `str.capitalize` on ASCII text: first code point
upper-cased, the rest lower-cased. -/
def pyCapitalize : Str → Str
  | [] => []
  | c :: t => upperB c :: t.map lowerB

/-- The fixed 12-entry month dictionary of `parse_meeting_date`. -/
def monthPairs : List (Str × Str) :=
  [(S "January", S "01"), (S "February", S "02"), (S "March", S "03"),
   (S "April", S "04"), (S "May", S "05"), (S "June", S "06"),
   (S "July", S "07"), (S "August", S "08"), (S "September", S "09"),
   (S "October", S "10"), (S "November", S "11"), (S "December", S "12")]

/-- Association-list lookup, the model of the dictionary indexing; a missing
key is the `KeyError` case. -/
def lookupPairs : List (Str × Str) → Str → Option Str
  | [], _ => none
  | (a, b) :: t, k => if a = k then some b else lookupPairs t k

/-- `month_num = {...}[month_str.capitalize()]` as an optional lookup. -/
def monthLookup (k : Str) : Option Str := lookupPairs monthPairs k

/-- `day_str.zfill(2)` on a digit string. -/
def zfill2 (d : Str) : Str :=
  if d.length < 2 then List.replicate (2 - d.length) 48 ++ d else d

/-- Format one date match as the source does: month number from the dictionary
(none models the KeyError), zero-padded day, four-digit year. -/
def formatDate (m : DateMatch) : Option Str :=
  match monthLookup (pyCapitalize m.month) with
  | none => none
  | some mm => some (mm ++ zfill2 m.day ++ m.year)

/-- `parse_meeting_date`, over the candidate text fragments the soup yields, in
order: the first fragment with a regex match is formatted (none models an
uncaught KeyError); if no fragment matches, the empty string is returned. -/
def parseMeetingDate : List Str → Option Str
  | [] => some []
  | c :: rest =>
    match searchDate c with
    | some m => formatDate m
    | none => parseMeetingDate rest

theorem lowerB_congr_upperB {a b : Nat} (h : lowerB a = lowerB b) :
    upperB a = upperB b := by
  unfold lowerB at h
  unfold upperB
  split_ifs at * <;> omega

theorem pyCapitalize_congr {s t : Str} (h : lowerStr s = lowerStr t) :
    pyCapitalize s = pyCapitalize t := by
  cases s with
  | nil =>
    cases t with
    | nil => rfl
    | cons b t => simp [lowerStr] at h
  | cons a s =>
    cases t with
    | nil => simp [lowerStr] at h
    | cons b t =>
      simp only [lowerStr, List.map_cons, List.cons.injEq] at h
      simp only [pyCapitalize, lowerB_congr_upperB h.1, h.2]

theorem tryMonths_some {ms : List Str} {l cap r : Str}
    (h : tryMonths ms l = some (cap, r)) :
    ∃ nm ∈ ms, lowerStr cap = lowerStr nm := by
  induction ms with
  | nil => simp [tryMonths] at h
  | cons nm ms ih =>
    rw [tryMonths] at h
    split_ifs at h with hc
    · exact ⟨nm, List.mem_cons_self nm ms, by
        have := (Option.some.injEq _ _).mp h
        rw [← (Prod.mk.injEq _ _ _ _).mp this |>.1]
        exact hc.2⟩
    · obtain ⟨nm', hmem, hl⟩ := ih h
      exact ⟨nm', List.mem_cons_of_mem nm hmem, hl⟩

theorem all_takeWhile (p : Nat → Bool) (l : Str) :
    (l.takeWhile p).all p = true := by
  rw [List.all_eq_true]
  intro x hx
  exact List.mem_takeWhile_imp hx

theorem matchAt_inv {l : Str} {m : DateMatch} (h : matchAt l = some m) :
    (∃ nm ∈ monthNames, lowerStr m.month = lowerStr nm) ∧
    (1 ≤ m.day.length ∧ m.day.length ≤ 2) ∧ m.day.all isDigitB = true ∧
    m.year.length = 4 ∧ m.year.all isDigitB = true := by
  unfold matchAt at h
  cases htm : tryMonths monthNames l with
  | none => rw [htm] at h; exact absurd h (by simp)
  | some capr =>
    obtain ⟨cap, r1⟩ := capr
    rw [htm] at h
    simp only at h
    split_ifs at h with h1 h2 h3 h4 h5 h6 h7 h8 h9 <;>
      first
        | exact Option.noConfusion h
        | (obtain rfl := Option.some_inj.mp h
           refine ⟨tryMonths_some htm, ⟨?_, ?_⟩, all_takeWhile _ _, ?_, ?_⟩ <;>
             dsimp only <;> first | omega | assumption)

theorem searchDate_matchAt {l : Str} {m : DateMatch}
    (h : searchDate l = some m) : ∃ s : Str, matchAt s = some m := by
  induction l with
  | nil => exact ⟨[], h⟩
  | cons c t ih =>
    rw [searchDate] at h
    cases hm : matchAt (c :: t) with
    | some m' => rw [hm] at h; exact ⟨c :: t, hm.trans h⟩
    | none => rw [hm] at h; exact ih h

theorem monthLookup_total {cap nm : Str} (hnm : nm ∈ monthNames)
    (hl : lowerStr cap = lowerStr nm) :
    (monthLookup (pyCapitalize cap)).isSome = true ∧
    ((monthLookup (pyCapitalize cap)).getD []).length = 2 ∧
    ((monthLookup (pyCapitalize cap)).getD []).all isDigitB = true := by
  simp only [monthNames, List.mem_cons, List.not_mem_nil, or_false] at hnm
  rcases hnm with rfl | rfl | rfl | rfl | rfl | rfl | rfl | rfl | rfl | rfl | rfl | rfl <;>
    rw [pyCapitalize_congr hl] <;> exact ⟨by decide, by decide, by decide⟩

theorem zfill2_spec {d : Str} (h1 : 1 ≤ d.length) (h2 : d.length ≤ 2)
    (hd : d.all isDigitB = true) :
    (zfill2 d).length = 2 ∧ (zfill2 d).all isDigitB = true := by
  rw [zfill2]
  split_ifs with hlt
  · constructor
    · simp only [List.length_append, List.length_replicate]
      omega
    · rw [List.all_append, Bool.and_eq_true]
      refine ⟨?_, hd⟩
      rw [List.all_eq_true]
      intro x hx
      rw [List.mem_replicate] at hx
      rw [hx.2]
      decide
  · exact ⟨by omega, hd⟩

theorem formatDate_spec {m : DateMatch}
    (hm : ∃ nm ∈ monthNames, lowerStr m.month = lowerStr nm)
    (hd1 : 1 ≤ m.day.length) (hd2 : m.day.length ≤ 2) (hd : m.day.all isDigitB = true)
    (hy1 : m.year.length = 4) (hy : m.year.all isDigitB = true) :
    (formatDate m).isSome = true ∧
    ((formatDate m).getD []).length = 8 ∧
    ((formatDate m).getD []).all isDigitB = true := by
  obtain ⟨nm, hnm, hl⟩ := hm
  obtain ⟨hsome, hlen2, hdig2⟩ := monthLookup_total hnm hl
  obtain ⟨hzl, hzd⟩ := zfill2_spec hd1 hd2 hd
  cases hml : monthLookup (pyCapitalize m.month) with
  | none => rw [hml] at hsome; simp at hsome
  | some mm =>
    rw [hml] at hlen2 hdig2
    simp only [Option.getD_some] at hlen2 hdig2
    rw [formatDate, hml]
    refine ⟨rfl, ?_, ?_⟩
    · simp only [Option.getD_some, List.length_append]
      omega
    · simp only [Option.getD_some, List.all_append, Bool.and_eq_true]
      exact ⟨⟨hdig2, hzd⟩, hy⟩

/-- The dictionary indexing in `parse_meeting_date` never raises: the function
always returns a value. -/
theorem parseMeetingDate_ne_none (cands : List Str) :
    parseMeetingDate cands ≠ none := by
  induction cands with
  | nil => simp [parseMeetingDate]
  | cons c rest ih =>
    rw [parseMeetingDate]
    cases hs : searchDate c with
    | none => exact ih
    | some m =>
      obtain ⟨s, hms⟩ := searchDate_matchAt hs
      obtain ⟨hm, ⟨hd1, hd2⟩, hd, hy1, hy⟩ := matchAt_inv hms
      have := (formatDate_spec hm hd1 hd2 hd hy1 hy).1
      simp only
      intro hcon
      rw [hcon] at this
      simp at this

/-- C10: the month-name dictionary lookup is total. For every text with a
date-pattern match, the captured month name (in whatever letter casing) is
normalized by capitalize to a key of the fixed 12-entry month map, so the
lookup succeeds and the formatted result is an 8-character digit string. -/
theorem claimC10_monthLookup_total (txt : Str) (m : DateMatch)
    (h : searchDate txt = some m) :
    (monthLookup (pyCapitalize m.month)).isSome = true ∧
    (formatDate m).isSome = true ∧
    ((formatDate m).getD []).length = 8 ∧
    ((formatDate m).getD []).all isDigitB = true := by
  obtain ⟨s, hms⟩ := searchDate_matchAt h
  obtain ⟨hm, ⟨hd1, hd2⟩, hd, hy1, hy⟩ := matchAt_inv hms
  obtain ⟨nm, hnm, hl⟩ := hm
  refine ⟨(monthLookup_total hnm hl).1, formatDate_spec ⟨nm, hnm, hl⟩ hd1 hd2 hd hy1 hy⟩

theorem claimC10_witness :
    (monthLookup (pyCapitalize (S "MAY"))).isSome = true ∧
    (formatDate ⟨S "MAY", S "3", S "2024"⟩).isSome = true ∧
    ((formatDate ⟨S "MAY", S "3", S "2024"⟩).getD []).length = 8 ∧
    ((formatDate ⟨S "MAY", S "3", S "2024"⟩).getD []).all isDigitB = true :=
  claimC10_monthLookup_total (S "Agenda MAY 3, 2024") ⟨S "MAY", S "3", S "2024"⟩
    (by decide)

/-- C5: the date extractor tests its candidate fragments in order and the first
fragment with a pattern match wins; the result is the formatted match (month
name mapped through the fixed table, day zero-padded). -/
theorem claimC5_first_fragment_wins (pre : List Str) (t : Str) (rest : List Str)
    (m : DateMatch) (h1 : ∀ u ∈ pre, searchDate u = none)
    (h2 : searchDate t = some m) :
    parseMeetingDate (pre ++ t :: rest) = formatDate m := by
  induction pre with
  | nil => rw [List.nil_append, parseMeetingDate, h2]
  | cons c pre ih =>
    rw [List.cons_append, parseMeetingDate, h1 c (List.mem_cons_self c pre)]
    exact ih fun u hu => h1 u (List.mem_cons_of_mem c hu)

theorem claimC5_witness :
    parseMeetingDate [S "Agenda Center", S "City Council Meeting - May 1, 2023"] =
      some (S "05012023") :=
  (claimC5_first_fragment_wins [S "Agenda Center"]
    (S "City Council Meeting - May 1, 2023") [] ⟨S "May", S "1", S "2023"⟩
    (by decide) (by decide)).trans (by decide)

/-! ## Filename construction (`build_filename`) -/

/-- The final path component of a URL string, as `pathlib` sees it: trailing
slashes stripped, then everything after the last slash. -/
def lastComponent (u : Str) : Str :=
  let u2 := (u.reverse.dropWhile fun c => decide (c = 47)).reverse
  (u2.reverse.takeWhile fun c => decide (c ≠ 47)).reverse

/-- The part of the final component after its last dot. -/
def afterDot (u : Str) : Str :=
  ((lastComponent u).reverse.takeWhile fun c => decide (c ≠ 46)).reverse

/-- `Path(url).suffix`: the extension of the final component including its
leading dot, empty unless the last dot sits strictly inside the name
(`0 < i < len(name) - 1` in the pathlib source). -/
def pathSuffix (u : Str) : Str :=
  if 46 ∈ lastComponent u then
    if 0 < (lastComponent u).length - (afterDot u).length - 1 ∧ 0 < (afterDot u).length
    then 46 :: afterDot u else []
  else []

/-- `build_filename`: `<date_str>_<ftype><ext>` with ".pdf" replacing an empty
extension. -/
def buildFilename (dateStr ftype url : Str) : Str :=
  dateStr ++ S "_" ++ ftype ++ (if pathSuffix url = [] then S ".pdf" else pathSuffix url)

theorem pathSuffix_head {u : Str} (h : pathSuffix u ≠ []) :
    (pathSuffix u).head? = some 46 := by
  rw [pathSuffix] at h ⊢
  split_ifs at h ⊢ with h1 h2
  · rfl
  · exact absurd rfl h
  · exact absurd rfl h

/-- C7: filename construction is a pure function of (date-or-fallback string,
type tag, URL): the result is always `<date_or_id>_<type><ext>`, where ext is
the URL's trailing extension when one is extractable and ".pdf" otherwise, and
the extension component is always nonempty and starts with a dot. -/
theorem claimC7_buildFilename_shape (d t u : Str) :
    buildFilename d t u =
      d ++ S "_" ++ t ++ (if pathSuffix u = [] then S ".pdf" else pathSuffix u) ∧
    ∃ e : Str, buildFilename d t u = d ++ S "_" ++ t ++ e ∧ e ≠ [] ∧
      e.head? = some 46 := by
  refine ⟨rfl, ?_⟩
  by_cases h : pathSuffix u = []
  · exact ⟨S ".pdf", by rw [buildFilename, if_pos h], by decide, by decide⟩
  · exact ⟨pathSuffix u, by rw [buildFilename, if_neg h], h, pathSuffix_head h⟩

/-! ## Per-meeting naming in `scrape_year` -/

/-- Decimal digits of a natural number, as `str(meeting_id)` renders it. -/
def natStr (n : Nat) : Str := (Nat.toDigits 10 n).map Char.toNat

/-- Lines 232-234 of the script: the parsed date, or the fallback identifier
`id<meeting_id>` when the parse came back empty. The none case models the
unreachable KeyError. -/
def meetingDateStr (mid : Nat) (cands : List Str) : Str :=
  match parseMeetingDate cands with
  | none => []
  | some d => if d = [] then S "id" ++ natStr mid else d

/-- Lines 238-241 of the script: the filename built for every extracted file
link of a meeting page. -/
def meetingFilenames (mid : Nat) (cands : List Str) (hrefs : List Str) : List Str :=
  (extractFileLinks hrefs).map fun p => buildFilename (meetingDateStr mid cands) p.2 p.1

theorem parseMeetingDate_empty {cands : List Str}
    (h : ∀ c ∈ cands, searchDate c = none) : parseMeetingDate cands = some [] := by
  induction cands with
  | nil => rfl
  | cons c rest ih =>
    rw [parseMeetingDate, h c (List.mem_cons_self c rest)]
    exact ih fun u hu => h u (List.mem_cons_of_mem c hu)

/-- C6: when no candidate fragment of a meeting page matches the date pattern,
the date extractor returns the empty string (it does not fail), and every
filename built for that meeting starts with `id<meeting_id>_`. -/
theorem claimC6_fallback_identifier (cands : List Str) (mid : Nat) (hrefs : List Str)
    (h : ∀ c ∈ cands, searchDate c = none) :
    parseMeetingDate cands = some [] ∧
    ∀ f ∈ meetingFilenames mid cands hrefs, (S "id" ++ natStr mid ++ S "_") <+: f := by
  have hp := parseMeetingDate_empty h
  refine ⟨hp, ?_⟩
  intro f hf
  rw [meetingFilenames] at hf
  obtain ⟨p, _, rfl⟩ := List.mem_map.mp hf
  have hd : meetingDateStr mid cands = S "id" ++ natStr mid := by
    rw [meetingDateStr, hp]
    rfl
  rw [buildFilename, hd, List.append_assoc, List.append_assoc]
  rw [← List.append_assoc (S "id") (natStr mid) (S "_")]
  exact List.prefix_append _ _

theorem claimC6_witness :
    (S "id" ++ natStr 777 ++ S "_") <+: S "id777_agenda.pdf" := by
  have hmem : S "id777_agenda.pdf" ∈
      meetingFilenames 777 [S "Regular Meeting"] [S "/x/Agenda/1.pdf"] := by decide
  exact (claimC6_fallback_identifier [S "Regular Meeting"] 777 [S "/x/Agenda/1.pdf"]
    (by decide)).2 _ hmem

/-! ## Orchestration (`scrape_year` and `main`)

Network and filesystem effects are modelled by an oracle (`World`): each URL
fetch yields either a transport failure (the exception `fetch` raises) or the
parsed page content, and each file download reports whether it succeeded and
whether it left a file on disk (a failed stream can leave a partial file). The
filesystem is the set of destination paths that exist, threaded through the
run; performed file-download HTTP requests are recorded as (url, dst) pairs. -/

/-- A meeting page as BeautifulSoup exposes it: candidate text fragments in
document order (headings, blocks, spans, then title) and hyperlink targets. -/
structure Page where
  texts : List Str
  hrefs : List Str

/-- The outcome oracle for one run: listing fetches per year, meeting-page
fetches per (meeting id, year), and download outcomes per file URL as
(succeeded, file left on disk). -/
structure World where
  listing : Nat → Except Unit (List Str)
  meeting : Nat → Nat → Except Unit Page
  dl : Str → Bool × Bool

/-- One iteration of the file loop in `scrape_year` (lines 240-253): build the
destination path `<year>/<filename>`, skip when it exists, otherwise issue the
download request and record whatever file it left. -/
def processFile (w : World) (yearDir dateStr : Str)
    (acc : List Str × List (Str × Str)) (lk : Str × Str) :
    List Str × List (Str × Str) :=
  let dst := yearDir ++ 47 :: buildFilename dateStr lk.2 lk.1
  if dst ∈ acc.1 then acc
  else ((if (w.dl lk.1).2 then dst :: acc.1 else acc.1), acc.2 ++ [(lk.1, dst)])

/-- One iteration of the meeting loop in `scrape_year` (lines 221-253): a
failed meeting-page fetch is caught and skipped; the date parse sits outside
the try block, so its (never occurring) KeyError would propagate. -/
def processMeeting (w : World) (y : Nat) (acc : List Str × List (Str × Str))
    (mid : Nat) : Except Unit (List Str × List (Str × Str)) :=
  match w.meeting mid y with
  | .error _ => .ok acc
  | .ok page =>
    match parseMeetingDate page.texts with
    | none => .error ()
    | some d =>
      let dateStr := if d = [] then S "id" ++ natStr mid else d
      .ok ((extractFileLinks page.hrefs).foldl (processFile w (natStr y) dateStr) acc)

/-- The meeting loop with exception propagation. -/
def foldMeetings (w : World) (y : Nat) :
    List Str × List (Str × Str) → List Nat → Except Unit (List Str × List (Str × Str))
  | acc, [] => .ok acc
  | acc, mid :: rest =>
    match processMeeting w y acc mid with
    | .error e => .error e
    | .ok acc2 => foldMeetings w y acc2 rest

/-- `scrape_year`: the listing fetch is NOT wrapped in try/except, so its
failure is the failure of the whole call; an empty meeting-ID list just ends
the year (identical to folding over the empty list). Returns the filesystem
after the year and the file-download requests issued. -/
def scrapeYear (w : World) (y : Nat) (fs : List Str) :
    Except Unit (List Str × List (Str × Str)) :=
  match w.listing y with
  | .error e => .error e
  | .ok hrefs => foldMeetings w y (fs, []) (extractMeetingIds hrefs)

/-- `main`: iterate the fixed year range in order; `scrape_year` is NOT
wrapped in try/except, so an exception it raises ends the loop. Returns the
years whose listing page the driver attempted to fetch, and the final
filesystem or the propagated exception. -/
def runMain (w : World) (fs : List Str) : List Nat → List Nat × Except Unit (List Str)
  | [] => ([], .ok fs)
  | y :: ys =>
    match scrapeYear w y fs with
    | .error e => ([y], .error e)
    | .ok (fs2, _) =>
      let p := runMain w fs2 ys
      (y :: p.1, p.2)

/-- `range(2022, 2026)` in `main`. -/
def yearRange : List Nat := [2022, 2023, 2024, 2025]

theorem processMeeting_ok (w : World) (y : Nat) (acc : List Str × List (Str × Str))
    (mid : Nat) : ∃ acc2, processMeeting w y acc mid = .ok acc2 := by
  cases hm : w.meeting mid y with
  | error e => exact ⟨acc, by simp only [processMeeting, hm]⟩
  | ok page =>
    cases hp : parseMeetingDate page.texts with
    | none => exact absurd hp (parseMeetingDate_ne_none page.texts)
    | some d =>
      refine ⟨(extractFileLinks page.hrefs).foldl
        (processFile w (natStr y) (if d = [] then S "id" ++ natStr mid else d)) acc, ?_⟩
      simp only [processMeeting, hm, hp]

theorem foldMeetings_ok (w : World) (y : Nat) :
    ∀ (mids : List Nat) (acc : List Str × List (Str × Str)),
      ∃ acc2, foldMeetings w y acc mids = .ok acc2 := by
  intro mids
  induction mids with
  | nil => exact fun acc => ⟨acc, rfl⟩
  | cons mid rest ih =>
    intro acc
    obtain ⟨acc1, h1⟩ := processMeeting_ok w y acc mid
    obtain ⟨acc2, h2⟩ := ih acc1
    exact ⟨acc2, by simp only [foldMeetings, h1, h2]⟩

theorem scrapeYear_ok {w : World} {y : Nat} {hrefs : List Str}
    (h : w.listing y = .ok hrefs) (fs : List Str) :
    ∃ out, scrapeYear w y fs = .ok out := by
  obtain ⟨out, hout⟩ := foldMeetings_ok w y (extractMeetingIds hrefs) (fs, [])
  exact ⟨out, by simp only [scrapeYear, h, hout]⟩

theorem scrapeYear_err {w : World} {y : Nat} (h : w.listing y = .error ())
    (fs : List Str) : scrapeYear w y fs = .error () := by
  simp only [scrapeYear, h]

/-- C1 counterexample: a world whose every listing fetch fails. -/
def wAllFail : World :=
  ⟨fun _ => .error (), fun _ _ => .error (), fun _ => (false, false)⟩

/-- C1 counterexample: with the 2022 listing fetch failing, the driver attempts
year 2022 only — year 2023 is never reached, refuting "the driver proceeds to
the next year in the range regardless". -/
theorem claimC1_counterexample :
    wAllFail.listing 2022 = .error () ∧
    (runMain wAllFail [] yearRange).1 = [2022] ∧
    2023 ∉ (runMain wAllFail [] yearRange).1 := by
  refine ⟨rfl, rfl, by decide⟩

/-- C1 amended: a listing-page fetch failure aborts the entire run, not just
that year. If every year before y fetches its listing successfully and the
listing fetch of y fails, the driver attempts exactly the years up to and
including y and the run ends with the propagated exception; the years after y
are never processed. -/
theorem claimC1_amended_listing_failure_aborts_run (w : World)
    (pre post : List Nat) (y : Nat)
    (h1 : ∀ z ∈ pre, ∃ hs, w.listing z = .ok hs)
    (h2 : w.listing y = .error ()) :
    ∀ fs, (runMain w fs (pre ++ y :: post)).1 = pre ++ [y] ∧
      (runMain w fs (pre ++ y :: post)).2 = .error () := by
  induction pre with
  | nil =>
    intro fs
    rw [List.nil_append]
    simp only [runMain, scrapeYear_err h2 fs]
    exact ⟨rfl, trivial⟩
  | cons z pre ih =>
    intro fs
    obtain ⟨hs, hz⟩ := h1 z (List.mem_cons_self z pre)
    obtain ⟨⟨fs2, dls⟩, hok⟩ := scrapeYear_ok hz fs
    rw [List.cons_append]
    simp only [runMain, hok]
    obtain ⟨ht, hr⟩ := ih (fun u hu => h1 u (List.mem_cons_of_mem z hu)) fs2
    rw [ht, hr]
    exact ⟨rfl, rfl⟩

/-- A world whose 2022 listing succeeds (with no meetings) and whose 2023
listing fails. -/
def wFail2023 : World :=
  ⟨fun z => if z = 2022 then .ok [] else .error (),
   fun _ _ => .error (), fun _ => (false, false)⟩

theorem claimC1_amended_witness :
    (runMain wFail2023 [] yearRange).1 = [2022, 2023] ∧
    (runMain wFail2023 [] yearRange).2 = .error () := by
  have h := claimC1_amended_listing_failure_aborts_run wFail2023 [2022] [2024, 2025]
    2023 (fun z hz => by
      simp only [List.mem_singleton] at hz
      exact ⟨[], by rw [hz]; rfl⟩)
    rfl []
  simpa using h

/-! ## Skip-if-exists (C8) -/

/-- The invariant of the download loops: the given destination is on disk and
no recorded file request targets it. -/
def UntouchedDst (dst : Str) (acc : List Str × List (Str × Str)) : Prop :=
  dst ∈ acc.1 ∧ dst ∉ acc.2.map Prod.snd

theorem processFile_untouched {dst : Str} {w : World} {yd ds : Str}
    {acc : List Str × List (Str × Str)} {lk : Str × Str}
    (h : UntouchedDst dst acc) : UntouchedDst dst (processFile w yd ds acc lk) := by
  obtain ⟨h1, h2⟩ := h
  rw [processFile]
  split_ifs with hex hcr
  · exact ⟨h1, h2⟩
  · refine ⟨List.mem_cons_of_mem _ h1, ?_⟩
    simp only [List.map_append, List.map_cons, List.map_nil]
    rw [List.mem_append]
    rintro (hc | hc)
    · exact h2 hc
    · simp only [List.mem_singleton] at hc
      subst hc
      exact hex h1
  · refine ⟨h1, ?_⟩
    simp only [List.map_append, List.map_cons, List.map_nil]
    rw [List.mem_append]
    rintro (hc | hc)
    · exact h2 hc
    · simp only [List.mem_singleton] at hc
      subst hc
      exact hex h1

theorem foldl_processFile_untouched {dst : Str} {w : World} {yd ds : Str} :
    ∀ (lks : List (Str × Str)) (acc : List Str × List (Str × Str)),
      UntouchedDst dst acc → UntouchedDst dst (lks.foldl (processFile w yd ds) acc) := by
  intro lks
  induction lks with
  | nil => exact fun acc h => h
  | cons lk rest ih =>
    intro acc h
    rw [List.foldl_cons]
    exact ih _ (processFile_untouched h)

theorem processMeeting_untouched {dst : Str} {w : World} {y : Nat}
    {acc acc2 : List Str × List (Str × Str)} {mid : Nat}
    (hrun : processMeeting w y acc mid = .ok acc2)
    (h : UntouchedDst dst acc) : UntouchedDst dst acc2 := by
  cases hm : w.meeting mid y with
  | error e =>
    simp only [processMeeting, hm, Except.ok.injEq] at hrun
    subst hrun
    exact h
  | ok page =>
    cases hp : parseMeetingDate page.texts with
    | none => exact absurd hp (parseMeetingDate_ne_none page.texts)
    | some d =>
      simp only [processMeeting, hm, hp, Except.ok.injEq] at hrun
      subst hrun
      exact foldl_processFile_untouched _ _ h

theorem foldMeetings_untouched {dst : Str} {w : World} {y : Nat} :
    ∀ (mids : List Nat) (acc acc2 : List Str × List (Str × Str)),
      foldMeetings w y acc mids = .ok acc2 →
      UntouchedDst dst acc → UntouchedDst dst acc2 := by
  intro mids
  induction mids with
  | nil =>
    intro acc acc2 hrun h
    obtain rfl := Except.ok.inj hrun
    exact h
  | cons mid rest ih =>
    intro acc acc2 hrun h
    cases hm : processMeeting w y acc mid with
    | error e =>
      simp only [foldMeetings, hm] at hrun
      exact Except.noConfusion hrun
    | ok acc1 =>
      simp only [foldMeetings, hm] at hrun
      exact ih acc1 acc2 hrun (processMeeting_untouched hm h)

/-- C8: a file whose destination path already exists under the output root is
skipped entirely: across the whole year no file-download HTTP request names
that destination, and the file is still present afterwards. -/
theorem claimC8_skip_if_exists (w : World) (y : Nat) (fs : List Str) (dst : Str)
    (hex : dst ∈ fs) (fs2 : List Str) (dls : List (Str × Str))
    (hrun : scrapeYear w y fs = .ok (fs2, dls)) :
    dst ∈ fs2 ∧ dst ∉ dls.map Prod.snd := by
  cases hl : w.listing y with
  | error e =>
    simp only [scrapeYear, hl] at hrun
    exact Except.noConfusion hrun
  | ok hrefs =>
    simp only [scrapeYear, hl] at hrun
    exact foldMeetings_untouched _ _ _ hrun ⟨hex, by simp⟩

/-- A world with one meeting whose single file is already on disk. -/
def wSkip : World :=
  ⟨fun _ => .ok [S "/AgendaCenter/26/501"],
   fun _ _ => .ok ⟨[S "May 1, 2023"], [S "https://www.joplinmo.org/Agenda/1.pdf"]⟩,
   fun _ => (true, true)⟩

theorem claimC8_witness :
    S "2023/05012023_agenda.pdf" ∈ [S "2023/05012023_agenda.pdf"] ∧
    S "2023/05012023_agenda.pdf" ∉ ([] : List (Str × Str)).map Prod.snd :=
  claimC8_skip_if_exists wSkip 2023 [S "2023/05012023_agenda.pdf"]
    (S "2023/05012023_agenda.pdf") (by decide) [S "2023/05012023_agenda.pdf"] []
    (by rfl)
